import Mathlib

/-!
# snappy-chandler: content-addressed, deduplicating blob store

A shallow embedding of `main.go` (the bootstrap transaction of `main` and the functions
`insert`, `retRdr.Read`, `retrieve`) together with theorems about ingestion and retrieval.

Modelling conventions.

* A byte slice is a `List (Fin 256)`; slicing out of bounds is a Go runtime
  fault, modelled as the result `none`.  `retRdr.Read` takes `r.hashes` with
  capacity equal to its length; `ReadSpare` takes it with any spare capacity and
  agrees with `retRdr.Read` as long as the remaining digest list is empty or holds a
  complete 32-byte record (`ReadSpare_of_complete`).
* The badger database is an ideal key-value map `Store`: `txn.Get` fails only
  with `ErrKeyNotFound` (when the key is absent), `txn.Set` always succeeds, and a
  `db.Update` transaction whose callback returns an error leaves the database as
  it was.  Inside a transaction `txn.Get` sees the transaction's own writes.
* `blake3.Sum256` and the restic chunker are libraries outside the repository;
  they are parameters (`Hasher`, `Chunker`) of the embedding.
-/

namespace SnappyChandler

abbrev Bytes := List (Fin 256)

/-- The error values that occur in `main.go`. -/
inductive Error where
  /-- The value `io.EOF`. -/
  | EOF
  /-- The value `badger.ErrKeyNotFound`. -/
  | ErrKeyNotFound
  /-- Any other error value (a failing input reader, for instance). -/
  | other (tag : Nat)
  /-- The error `fmt.Errorf("version check failed: %v (db) != %v (tool)", val, version)`. -/
  | versionCheck (val tool : List (Fin 256))
  deriving DecidableEq

/-- Contents of the badger database: a finite map from keys to values. -/
abbrev Store := Bytes → Option Bytes

/-- The store without any entry. -/
def emptyStore : Store := fun _ => none

/-- Effect of `txn.Set(key, val)` on the entries. -/
def setKey (db : Store) (key val : Bytes) : Store :=
  fun k => if k = key then some val else db k

/-- Model of `txn.Get(key)` followed by reading the item's value. -/
def txnGet (db : Store) (key : Bytes) : Except Error Bytes :=
  match db key with
  | some val => .ok val
  | none => .error .ErrKeyNotFound

/-- Model of `txn.Set(key, val)`. -/
def txnSet (db : Store) (key val : Bytes) : Except Error Store :=
  .ok (setKey db key val)

/-- The bytes of `[]byte("version")`. -/
def versionKey : Bytes := [118, 101, 114, 115, 105, 111, 110]

/-- The bytes of `[]byte("polynomial")`. -/
def polynomialKey : Bytes := [112, 111, 108, 121, 110, 111, 109, 105, 97, 108]

/-- The bytes of `[]byte("chunk/")`. -/
def chunkPrefix : Bytes := [99, 104, 117, 110, 107, 47]

/-- The bytes of `[]byte("blob/")`. -/
def blobPrefix : Bytes := [98, 108, 111, 98, 47]

/-- The key `append([]byte("chunk/"), hash[:]...)`. -/
def chunkKey (hash : Bytes) : Bytes := chunkPrefix ++ hash

/-- The key `append([]byte("blob/"), superhash[:]...)`. -/
def blobKey (superhash : Bytes) : Bytes := blobPrefix ++ superhash

/-- The value `[32]byte{}`. -/
def zeroHash : Bytes := List.replicate 32 0

/-- Model of `binary.LittleEndian.Uint64`: it indexes `b[7]`, so a slice shorter than
eight bytes is a runtime fault (`none`). -/
def Uint64 : Bytes → Option Nat
  | b0 :: b1 :: b2 :: b3 :: b4 :: b5 :: b6 :: b7 :: _ =>
    some (b0.val + b1.val * 2 ^ 8 + b2.val * 2 ^ 16 + b3.val * 2 ^ 24 + b4.val * 2 ^ 32
      + b5.val * 2 ^ 40 + b6.val * 2 ^ 48 + b7.val * 2 ^ 56)
  | _ => none

/-- The function `blake3.Sum256`, of type `[]byte → [32]byte`. -/
structure Hasher where
  Sum256 : Bytes → Bytes
  size : ∀ b, (Sum256 b).length = 32

/-- An `io.Reader`: the bytes it delivers and the error that ends it (`io.EOF` for
an ordinary reader such as `bytes.NewReader`). -/
structure Reader where
  data : Bytes
  err : Error

/-- The reader `bytes.NewReader(b)`. -/
def NewReader (b : Bytes) : Reader := ⟨b, .EOF⟩

/-- What successive calls of `ch.Next(buf)` return: the data of the chunks, in order,
and then the error of the last call (`io.EOF` at the end of the input). -/
structure Chunks where
  chunks : List Bytes
  err : Error

/-- The chunker `chunker.New(r, poly)`. -/
abbrev Chunker := Nat → Reader → Chunks

/-- The `for` loop of the `db.Update` callback in `insert`, run over the results of
`ch.Next`.  `txn` holds the entries seen by the transaction and `hashes` the digest
list accumulated so far. -/
def insertLoop (H : Hasher) (txn : Store) (hashes : Bytes) (err : Error) :
    List Bytes → Except Error (Store × Bytes)
  | [] => if err = .EOF then .ok (txn, hashes) else .error err
  | chunkData :: rest =>
    let data := chunkData
    let hash := H.Sum256 chunkData
    let hashes := hashes ++ hash
    match txnGet txn (chunkKey hash) with
    | .ok _ => insertLoop H txn hashes err rest
    | .error e =>
      if e ≠ .ErrKeyNotFound then .error e
      else
        match txnSet txn (chunkKey hash) data with
        | .error e => .error e
        | .ok txn => insertLoop H txn hashes err rest

/-- Result of `insert`: the returned pair and the database after the call. -/
structure InsertResult where
  superhash : Bytes
  err : Option Error
  db : Store

/-- Model of `insert(db, r)`.  The result `none` is the runtime fault of decoding a
polynomial value shorter than eight bytes. -/
def insert (ch : Chunker) (H : Hasher) (db : Store) (r : Reader) : Option InsertResult :=
  match txnGet db polynomialKey with
  | .error e => some ⟨zeroHash, some e, db⟩
  | .ok val =>
    match Uint64 val with
    | none => none
    | some poly =>
      let run := ch poly r
      match insertLoop H db [] run.err run.chunks with
      | .error e => some ⟨zeroHash, some e, db⟩
      | .ok (txn, hashes) =>
        let superhash := H.Sum256 hashes
        match txnSet txn (blobKey superhash) hashes with
        | .error e => some ⟨zeroHash, some e, db⟩
        | .ok txn => some ⟨superhash, none, txn⟩

/-- The struct `retRdr`; `db` is the content of the database the reader points to. -/
structure retRdr where
  db : Store
  hashes : Bytes
  offset : Nat

/-- Result of one `Read` call: the count `n`, the bytes copied into `p[:n]`, the
error, and the reader afterwards. -/
structure ReadResult where
  n : Nat
  data : Bytes
  err : Option Error
  rdr : retRdr

/-- Model of `(r *retRdr) Read(p)` for a buffer `p` of length `plen`.  The result
`none` is a slice-bounds fault (`r.hashes[:32]` or `val[r.offset:]`).  The slice
`r.hashes` is taken without spare capacity; `ReadSpare` below is the same function for
any spare capacity. -/
def retRdr.Read (r : retRdr) (plen : Nat) : Option ReadResult :=
  if r.hashes.length = 0 then some ⟨0, [], some .EOF, r⟩
  else if r.hashes.length < 32 then none
  else
    let hash := r.hashes.take 32
    match txnGet r.db (chunkKey hash) with
    | .error e =>
      -- n = l = 0, so the else branch of `if n != l` runs
      some ⟨0, [], some e, { r with hashes := r.hashes.drop 32 }⟩
    | .ok val =>
      if val.length < r.offset then none
      else
        let l := val.length - r.offset
        let data := (val.drop r.offset).take plen
        let n := data.length
        if n ≠ l then some ⟨n, data, none, { r with offset := n }⟩
        else some ⟨n, data, none, { r with hashes := r.hashes.drop 32 }⟩

/-- Model of `retrieve(db, superhash)`: the reader and the error returned. -/
def retrieve (db : Store) (superhash : Bytes) : retRdr × Option Error :=
  match txnGet db (blobKey superhash) with
  | .error e => (⟨db, [], 0⟩, some e)
  | .ok hashes => (⟨db, hashes, 0⟩, none)

/-- How a sequence of `Read` calls ended. -/
inductive Stop where
  /-- A call returned `io.EOF`. -/
  | eof
  /-- A call returned another error. -/
  | failed (e : Error)
  /-- A call hit a runtime fault. -/
  | crashed
  /-- Every call returned without error: the stream has not ended yet. -/
  | pending
  deriving DecidableEq

/-- Successive `Read` calls, one per buffer length in the list, up to the first call
that returns an error (`io.EOF` included) or faults; the bytes returned are
concatenated. -/
def readCalls : List Nat → retRdr → Bytes × Stop
  | [], _ => ([], .pending)
  | plen :: rest, r =>
    match r.Read plen with
    | none => ([], .crashed)
    | some out =>
      match out.err with
      | some .EOF => (out.data, .eof)
      | some e => (out.data, .failed e)
      | none => ((out.data ++ (readCalls rest out.rdr).1), (readCalls rest out.rdr).2)


/-! ### Specification-level descriptions used to state the theorems -/

/-- One step of the chunk store: the chunk is written under its digest unless that
key already has an entry. -/
def putIfAbsent (H : Hasher) (db : Store) (c : Bytes) : Store :=
  match db (chunkKey (H.Sum256 c)) with
  | some _ => db
  | none => setKey db (chunkKey (H.Sum256 c)) c

/-- The chunk store after the chunks `cs` have been offered in order. -/
def storeChunks (H : Hasher) (db : Store) (cs : List Bytes) : Store :=
  cs.foldl (putIfAbsent H) db

/-- The digests of the chunks `cs`, concatenated in stream order. -/
def digestList (H : Hasher) (cs : List Bytes) : Bytes :=
  (cs.map H.Sum256).flatten

/-- The byte strings between which a digest collision would matter for a store and
a list of chunks: the chunks themselves and the values of the chunk entries. -/
def Relevant (db : Store) (cs : List Bytes) (x : Bytes) : Prop :=
  x ∈ cs ∨ ∃ h, db (chunkKey h) = some x

/-- Every chunk entry is keyed by the digest of its own bytes. -/
def ChunksKeyedByDigest (H : Hasher) (db : Store) : Prop :=
  ∀ h v, db (chunkKey h) = some v → H.Sum256 v = h

/-- The store holds a polynomial: the entry `polynomial` exists and decodes to `poly`. -/
def HoldsPolynomial (db : Store) (poly : Nat) : Prop :=
  ∃ val, db polynomialKey = some val ∧ Uint64 val = some poly

/-! ### Concrete instances used to evaluate the definitions -/

/-- A toy digest: the input padded with zeros and cut to 32 bytes. -/
def padHasher : Hasher where
  Sum256 := fun b => (b ++ List.replicate 32 0).take 32
  size := by intro b; simp

/-- A toy chunker: an input of at most three bytes is one chunk (none if empty),
a longer one is split after its third byte. -/
def splitAt3 : Chunker := fun _ r =>
  ⟨if r.data.length = 0 then [] else if r.data.length ≤ 3 then [r.data]
    else [r.data.take 3, r.data.drop 3], r.err⟩

/-- A freshly bootstrapped store: `version` and an 8-byte `polynomial`. -/
def demoStore : Store :=
  setKey (setKey emptyStore versionKey [0]) polynomialKey [1, 0, 0, 0, 0, 0, 0, 0]


/-- The manifest cut down to its complete 32-byte records. -/
def completeRecords (hashes : Bytes) : Bytes := hashes.take (32 * (hashes.length / 32))

/-- What a caller observes of a `Read` call, with the remaining digest list cut down to
its complete records. -/
def observe (out : ReadResult) : Nat × Bytes × Option Error × Nat × Bytes :=
  (out.n, out.data, out.err, out.rdr.offset, completeRecords out.rdr.hashes)

/-- The result of ingesting `b` into the fresh store `demoStore` with the toy chunker
and digest. -/
def demoInsert (b : Bytes) : InsertResult :=
  (insert splitAt3 padHasher demoStore (NewReader b)).getD ⟨[], none, emptyStore⟩

/-- A store whose manifest under the all-zero superhash is 33 bytes long: the digest of
the stored chunk `[7, 8, 9]` followed by one stray byte. -/
def corruptStore : Store :=
  setKey (setKey demoStore (chunkKey (padHasher.Sum256 [7, 8, 9])) [7, 8, 9])
    (blobKey zeroHash) (padHasher.Sum256 [7, 8, 9] ++ [1])


/-! ### The bootstrap transaction of `main` -/

/-- The slice `version` of `main`. -/
def version : Bytes := [0]

/-- The conversion `byte(v)` of an unsigned integer. -/
def byte (v : Nat) : Fin 256 := ⟨v % 256, Nat.mod_lt v (by decide)⟩

/-- Model of `binary.LittleEndian.PutUint64(b, v)` on a fresh 8-byte slice `b`. -/
def PutUint64 (v : Nat) : Bytes :=
  [byte v, byte (v / 2 ^ 8), byte (v / 2 ^ 16), byte (v / 2 ^ 24), byte (v / 2 ^ 32),
    byte (v / 2 ^ 40), byte (v / 2 ^ 48), byte (v / 2 ^ 56)]

/-- Model of the `db.Update` call of `main`: the error it returns and the database
afterwards.  `rand` is the result of `chunker.RandomPolynomial()`, consulted only on
the fresh-store path.  The result `none` is the index fault of `val[0]` (or
`version[0]`) on an empty slice. -/
def bootstrap (rand : Except Error Nat) (db : Store) : Option (Option Error × Store) :=
  match txnGet db versionKey with
  | .error _ =>
    -- the error of this `txn.Set` is not looked at
    let txn := match txnSet db versionKey [0] with
      | .ok txn => txn
      | .error _ => db
    match rand with
    | .error e => some (some e, db)
    | .ok poly =>
      let b := PutUint64 poly
      let txn := match txnSet txn polynomialKey b with
        | .ok txn => txn
        | .error _ => txn
      some (none, txn)
  | .ok val =>
    match val, version with
    | v0 :: _, t0 :: _ =>
      if v0 ≠ t0 then some (some (.versionCheck val version), db) else some (none, db)
    | _, _ => none

/-! ### Reader states and store well-formedness -/

/-- The reader after successive `Read` calls, one per buffer length in the list,
whatever the calls return; `none` if a call faults. -/
def readerAfter : List Nat → retRdr → Option retRdr
  | [], r => some r
  | plen :: rest, r =>
    match r.Read plen with
    | none => none
    | some out => readerAfter rest out.rdr

/-- The `i`-th 32-byte record of a manifest. -/
def record (m : Bytes) (i : Nat) : Bytes := (m.drop (32 * i)).take 32

/-- Every blob entry has a length that is a multiple of 32, and each of its 32-byte
records is the key of a present chunk entry. -/
def ManifestsComplete (db : Store) : Prop :=
  ∀ s m, db (blobKey s) = some m →
    m.length % 32 = 0 ∧ ∀ i, i < m.length / 32 → (db (chunkKey (record m i))).isSome

/-- Store well-formedness: chunk entries are keyed by the digest of their bytes and
manifests reference only present chunks. -/
def WellFormed (H : Hasher) (db : Store) : Prop :=
  ChunksKeyedByDigest H db ∧ ManifestsComplete db

/-- The reader `retrieve` returns for the stream `b` ingested into `demoStore`. -/
def demoReader (b : Bytes) : retRdr :=
  (retrieve (demoInsert b).db (demoInsert b).superhash).1

/-! ### Reading with spare capacity

`r.hashes[:32]` is bounded by the capacity of the slice, not by its length, and the
copy made by `item.ValueCopy(nil)` may have capacity beyond its length.  `ReadSpare`
is `Read` for a slice `r.hashes` whose backing array continues with the bytes `spare`;
`retRdr.Read` is the case of no spare capacity. -/

/-- Model of `(r *retRdr) Read(p)` when the backing array of `r.hashes` holds the bytes
`spare` beyond the length of the slice.  `r.hashes[:32]` faults only beyond the
capacity, `r.hashes[32:]` faults beyond the length, and `val[r.offset:]` beyond the
length of the chunk. -/
def ReadSpare (spare : Bytes) (r : retRdr) (plen : Nat) : Option ReadResult :=
  if r.hashes.length = 0 then some ⟨0, [], some .EOF, r⟩
  else if r.hashes.length + spare.length < 32 then none
  else
    let hash := (r.hashes ++ spare).take 32
    match txnGet r.db (chunkKey hash) with
    | .error e =>
      if r.hashes.length < 32 then none
      else some ⟨0, [], some e, { r with hashes := r.hashes.drop 32 }⟩
    | .ok val =>
      if val.length < r.offset then none
      else
        let l := val.length - r.offset
        let data := (val.drop r.offset).take plen
        let n := data.length
        if n ≠ l then some ⟨n, data, none, { r with offset := n }⟩
        else if r.hashes.length < 32 then none
        else some ⟨n, data, none, { r with hashes := r.hashes.drop 32 }⟩

/-- Successive `ReadSpare` calls up to the first call that returns an error or faults,
as `readCalls`. -/
def readCallsSpare (spare : Bytes) : List Nat → retRdr → Bytes × Stop
  | [], _ => ([], .pending)
  | plen :: rest, r =>
    match ReadSpare spare r plen with
    | none => ([], .crashed)
    | some out =>
      match out.err with
      | some .EOF => (out.data, .eof)
      | some e => (out.data, .failed e)
      | none => ((out.data ++ (readCallsSpare spare rest out.rdr).1),
          (readCallsSpare spare rest out.rdr).2)

/-- The reader after successive `ReadSpare` calls, whatever the calls return; `none` if
a call faults. -/
def readerAfterSpare (spare : Bytes) : List Nat → retRdr → Option retRdr
  | [], r => some r
  | plen :: rest, r =>
    match ReadSpare spare r plen with
    | none => none
    | some out => readerAfterSpare spare rest out.rdr

/-- A store that holds the chunk `[7, 8, 9]` and, under the all-zero superhash, a
manifest of 31 bytes: the digest of that chunk without its last byte, which is 0. -/
def shortStore : Store :=
  setKey (setKey demoStore (chunkKey (padHasher.Sum256 [7, 8, 9])) [7, 8, 9])
    (blobKey zeroHash) ((padHasher.Sum256 [7, 8, 9]).take 31)

/-! ### Keys -/

theorem chunkKey_ne_blobKey (h s : Bytes) : chunkKey h ≠ blobKey s := by
  simp [chunkKey, blobKey, chunkPrefix, blobPrefix]

theorem chunkKey_ne_polynomialKey (h : Bytes) : chunkKey h ≠ polynomialKey := by
  simp [chunkKey, polynomialKey, chunkPrefix]

theorem chunkKey_ne_versionKey (h : Bytes) : chunkKey h ≠ versionKey := by
  simp [chunkKey, versionKey, chunkPrefix]

theorem blobKey_ne_polynomialKey (s : Bytes) : blobKey s ≠ polynomialKey := by
  simp [blobKey, polynomialKey, blobPrefix]

theorem blobKey_ne_versionKey (s : Bytes) : blobKey s ≠ versionKey := by
  simp [blobKey, versionKey, blobPrefix]

theorem chunkKey_inj {a b : Bytes} : chunkKey a = chunkKey b ↔ a = b := by
  simp [chunkKey]

/-! ### The store -/

theorem setKey_same (db : Store) (k v : Bytes) : setKey db k v k = some v := by
  simp [setKey]

theorem setKey_other (db : Store) {k k' : Bytes} (v : Bytes) (h : k' ≠ k) :
    setKey db k v k' = db k' := by
  simp [setKey, h]

theorem setKey_of_mem (db : Store) {k v : Bytes} (h : db k = some v) : setKey db k v = db := by
  funext k'
  by_cases hk : k' = k
  · subst hk; simp [setKey, h]
  · simp [setKey, hk]

/-! ### The ingestion loop -/

theorem storeChunks_nil (H : Hasher) (db : Store) : storeChunks H db [] = db := rfl

theorem storeChunks_cons (H : Hasher) (db : Store) (c : Bytes) (cs : List Bytes) :
    storeChunks H db (c :: cs) = storeChunks H (putIfAbsent H db c) cs := rfl

theorem digestList_nil (H : Hasher) : digestList H [] = [] := rfl

theorem digestList_cons (H : Hasher) (c : Bytes) (cs : List Bytes) :
    digestList H (c :: cs) = H.Sum256 c ++ digestList H cs := by
  simp [digestList]

theorem digestList_length (H : Hasher) (cs : List Bytes) :
    (digestList H cs).length = 32 * cs.length := by
  induction cs with
  | nil => rfl
  | cons c cs ih => rw [digestList_cons, List.length_append, H.size, ih, List.length_cons]; ring

/-- The loop of `insert` ends in an error exactly when the chunker does; otherwise it
has offered every chunk to the chunk store and collected the digests in order. -/
theorem insertLoop_eq (H : Hasher) (err : Error) (cs : List Bytes) (txn : Store) (hashes : Bytes) :
    insertLoop H txn hashes err cs =
      if err = .EOF then .ok (storeChunks H txn cs, hashes ++ digestList H cs) else .error err := by
  induction cs generalizing txn hashes with
  | nil => simp [insertLoop, storeChunks_nil, digestList_nil]
  | cons c cs ih =>
    rw [insertLoop, storeChunks_cons, digestList_cons]
    cases hget : txn (chunkKey (H.Sum256 c)) with
    | some v =>
      simp only [txnGet, hget, putIfAbsent]
      rw [ih, List.append_assoc]
    | none =>
      simp only [txnGet, hget, putIfAbsent, txnSet]
      simp only [ne_eq, not_true_eq_false, if_false]
      rw [ih, List.append_assoc]

/-- Entries of the chunk store after offering `cs`: an entry that was present is kept,
an absent key receives the first chunk of `cs` with that key. -/
theorem storeChunks_apply (H : Hasher) (cs : List Bytes) (db : Store) (k : Bytes) :
    storeChunks H db cs k =
      (db k).or (cs.find? (fun c => decide (chunkKey (H.Sum256 c) = k))) := by
  induction cs generalizing db with
  | nil => simp [storeChunks_nil]
  | cons c cs ih =>
    rw [storeChunks_cons, ih, List.find?_cons]
    cases hget : db (chunkKey (H.Sum256 c)) with
    | some v =>
      simp only [putIfAbsent, hget]
      by_cases hk : chunkKey (H.Sum256 c) = k
      · subst hk; simp [hget]
      · simp [hk]
    | none =>
      simp only [putIfAbsent, hget]
      by_cases hk : chunkKey (H.Sum256 c) = k
      · subst hk; simp [setKey, hget]
      · have hk' : k ≠ chunkKey (H.Sum256 c) := fun h => hk h.symm
        simp [setKey, hk, hk']


theorem storeChunks_of_present (H : Hasher) (cs : List Bytes) (db : Store)
    (h : ∀ c ∈ cs, (db (chunkKey (H.Sum256 c))).isSome) : storeChunks H db cs = db := by
  funext k
  rw [storeChunks_apply]
  cases hk : db k with
  | some v => rfl
  | none =>
    have hnone : cs.find? (fun c => decide (chunkKey (H.Sum256 c) = k)) = none := by
      rw [List.find?_eq_none]
      intro c hc hkey
      have := h c hc
      simp only [decide_eq_true_eq] at hkey
      rw [hkey, hk] at this
      exact absurd this (by simp)
    simp [hnone]

theorem storeChunks_present (H : Hasher) (cs : List Bytes) (db : Store) :
    ∀ c ∈ cs, (storeChunks H db cs (chunkKey (H.Sum256 c))).isSome := by
  intro c hc
  rw [storeChunks_apply]
  cases hk : db (chunkKey (H.Sum256 c)) with
  | some v => rfl
  | none =>
    simp only [Option.or]
    rw [List.find?_isSome]
    exact ⟨c, hc, by simp⟩

/-- An entry that is present is not touched by offering chunks. -/
theorem storeChunks_keep (H : Hasher) (cs : List Bytes) (db : Store) {k v : Bytes}
    (h : db k = some v) : storeChunks H db cs k = some v := by
  rw [storeChunks_apply, h]; rfl

/-- A key that is not a chunk key is not touched by offering chunks. -/
theorem storeChunks_other (H : Hasher) (cs : List Bytes) (db : Store) (k : Bytes)
    (h : ∀ d, k ≠ chunkKey d) : storeChunks H db cs k = db k := by
  rw [storeChunks_apply]
  have hnone : cs.find? (fun c => decide (chunkKey (H.Sum256 c) = k)) = none := by
    rw [List.find?_eq_none]
    intro c _ hkey
    simp only [decide_eq_true_eq] at hkey
    exact h _ hkey.symm
  rw [hnone]; cases db k <;> rfl

/-- What `insert` returns on a store whose polynomial decodes. -/
theorem insert_eq (ch : Chunker) (H : Hasher) (db : Store) (r : Reader) {poly : Nat}
    (hp : HoldsPolynomial db poly) :
    insert ch H db r = some
      (if (ch poly r).err = .EOF then
        ⟨H.Sum256 (digestList H (ch poly r).chunks), none,
          setKey (storeChunks H db (ch poly r).chunks)
            (blobKey (H.Sum256 (digestList H (ch poly r).chunks)))
            (digestList H (ch poly r).chunks)⟩
      else ⟨zeroHash, some (ch poly r).err, db⟩) := by
  obtain ⟨val, hval, hdec⟩ := hp
  simp only [insert, txnGet, hval, hdec, insertLoop_eq]
  by_cases he : (ch poly r).err = .EOF
  · simp [he, txnSet]
  · simp [he]

/-- The polynomial entry survives an ingestion. -/
theorem holdsPolynomial_after (H : Hasher) (db : Store) (cs : List Bytes) (s m : Bytes)
    {poly : Nat} (hp : HoldsPolynomial db poly) :
    HoldsPolynomial (setKey (storeChunks H db cs) (blobKey s) m) poly := by
  obtain ⟨val, hval, hdec⟩ := hp
  refine ⟨val, ?_, hdec⟩
  rw [setKey_other _ _ (blobKey_ne_polynomialKey s).symm]
  exact storeChunks_keep H cs db hval

/-- Under a collision-free digest every chunk of the stream is found under its own
digest once the chunks have been offered. -/
theorem storeChunks_lookup (H : Hasher) (cs : List Bytes) (db : Store)
    (hwf : ChunksKeyedByDigest H db)
    (hinj : ∀ x y, Relevant db cs x → Relevant db cs y → H.Sum256 x = H.Sum256 y → x = y) :
    ∀ c ∈ cs, storeChunks H db cs (chunkKey (H.Sum256 c)) = some c := by
  intro c hc
  rw [storeChunks_apply]
  cases hk : db (chunkKey (H.Sum256 c)) with
  | some v =>
    have hv : H.Sum256 v = H.Sum256 c := hwf _ _ hk
    have : v = c := hinj v c (Or.inr ⟨_, hk⟩) (Or.inl hc) hv
    simp [this]
  | none =>
    have hsome := storeChunks_present H cs db c hc
    rw [storeChunks_apply, hk] at hsome
    simp only [Option.or] at hsome ⊢
    obtain ⟨c', hc'⟩ := Option.isSome_iff_exists.mp hsome
    have hmem := List.mem_of_find?_eq_some hc'
    have hkey := List.find?_some hc'
    simp only [decide_eq_true_eq, chunkKey_inj] at hkey
    have : c' = c := hinj c' c (Or.inl hmem) (Or.inl hc) hkey
    rw [hc', this]

/-! ### Reading -/

/-- A `Read` at offset zero whose buffer holds the head chunk whole returns the chunk
and advances to the next digest. -/
theorem Read_whole (db : Store) (hash rest c : Bytes) (plen : Nat)
    (hlen : hash.length = 32) (hget : db (chunkKey hash) = some c) (hp : c.length ≤ plen) :
    retRdr.Read ⟨db, hash ++ rest, 0⟩ plen = some ⟨c.length, c, none, ⟨db, rest, 0⟩⟩ := by
  have h1 : (hash ++ rest).length ≠ 0 := by rw [List.length_append, hlen]; omega
  have h2 : ¬ (hash ++ rest).length < 32 := by rw [List.length_append, hlen]; omega
  have h3 : (hash ++ rest).take 32 = hash := List.take_left' hlen
  have h4 : (hash ++ rest).drop 32 = rest := List.drop_left' hlen
  have h5 : List.take plen c = c := List.take_of_length_le hp
  unfold retRdr.Read
  dsimp only
  rw [if_neg h1, if_neg h2, h3, h4]
  simp [txnGet, hget, h5]

theorem Read_nil (db : Store) (offset plen : Nat) :
    retRdr.Read ⟨db, [], offset⟩ plen = some ⟨0, [], some .EOF, ⟨db, [], offset⟩⟩ := by
  simp [retRdr.Read]

/-- Whole-chunk reads of a manifest whose chunks are all present return the chunks in
order and then end of stream. -/
theorem readCalls_whole (H : Hasher) (db : Store) (cs : List Bytes)
    (hget : ∀ c ∈ cs, db (chunkKey (H.Sum256 c)) = some c) :
    ∀ ks : List Nat, (∀ k ∈ ks, ∀ c ∈ cs, c.length ≤ k) → cs.length < ks.length →
      readCalls ks ⟨db, digestList H cs, 0⟩ = (cs.flatten, .eof) := by
  induction cs with
  | nil =>
    intro ks _ hlen
    match ks, hlen with
    | k :: ks, _ => simp [readCalls, digestList_nil, Read_nil]
  | cons c cs ih =>
    intro ks hbuf hlen
    match ks, hbuf, hlen with
    | k :: ks, hbuf, hlen =>
      have hc := hget c (List.mem_cons_self _ _)
      have hk : c.length ≤ k := hbuf k (List.mem_cons_self _ _) c (List.mem_cons_self _ _)
      have ih' := ih (fun c' hc' => hget c' (List.mem_cons_of_mem _ hc')) ks
        (fun k' hk' c' hc' => hbuf k' (List.mem_cons_of_mem _ hk') c' (List.mem_cons_of_mem _ hc'))
        (by simpa using hlen)
      rw [readCalls, digestList_cons, Read_whole db _ _ c k (H.size c) hc hk]
      simp [ih']


/-- The two ways `insert` returns: with an error, the zero digest and the store as it
was, or with the superhash and the store extended by the new chunks and the manifest. -/
theorem insert_cases (ch : Chunker) (H : Hasher) (db : Store) (r : Reader) (o : InsertResult)
    (hins : insert ch H db r = some o) :
    (∃ e, o = ⟨zeroHash, some e, db⟩) ∨
    (∃ poly, HoldsPolynomial db poly ∧ (ch poly r).err = .EOF ∧
      o = ⟨H.Sum256 (digestList H (ch poly r).chunks), none,
        setKey (storeChunks H db (ch poly r).chunks)
          (blobKey (H.Sum256 (digestList H (ch poly r).chunks)))
          (digestList H (ch poly r).chunks)⟩) := by
  cases hval : db polynomialKey with
  | none =>
    left
    simp only [insert, txnGet, hval, Option.some.injEq] at hins
    exact ⟨_, hins.symm⟩
  | some val =>
    cases hdec : Uint64 val with
    | none => simp [insert, txnGet, hval, hdec] at hins
    | some poly =>
      have hp : HoldsPolynomial db poly := ⟨val, hval, hdec⟩
      rw [insert_eq ch H db r hp] at hins
      by_cases he : (ch poly r).err = .EOF
      · right
        rw [if_pos he, Option.some.injEq] at hins
        exact ⟨poly, hp, he, hins.symm⟩
      · left
        rw [if_neg he, Option.some.injEq] at hins
        exact ⟨_, hins.symm⟩

theorem demoStore_chunkKey (h : Bytes) : demoStore (chunkKey h) = none := by
  simp [demoStore, setKey, emptyStore, chunkKey_ne_polynomialKey, chunkKey_ne_versionKey]

theorem demoStore_holdsPolynomial : HoldsPolynomial demoStore 1 :=
  ⟨[1, 0, 0, 0, 0, 0, 0, 0], by decide, by decide⟩

theorem demoStore_keyed (H : Hasher) : ChunksKeyedByDigest H demoStore := by
  intro h v hv
  rw [demoStore_chunkKey] at hv
  exact absurd hv (by simp)

theorem completeRecords_length (h : Bytes) :
    (completeRecords h).length = 32 * (h.length / 32) := by
  unfold completeRecords
  rw [List.length_take]
  have := Nat.mul_div_le h.length 32
  omega

theorem completeRecords_idem (h : Bytes) : completeRecords (completeRecords h) = completeRecords h := by
  have hl := completeRecords_length h
  have hdef : completeRecords (completeRecords h) =
      (completeRecords h).take (32 * ((completeRecords h).length / 32)) := rfl
  rw [hdef, hl, Nat.mul_div_cancel_left _ (by decide : 0 < 32), ← hl]
  exact List.take_of_length_le (Nat.le_refl _)

theorem completeRecords_take (h : Bytes) (hlen : 32 ≤ h.length) :
    (completeRecords h).take 32 = h.take 32 := by
  unfold completeRecords
  rw [List.take_take]
  have : 1 ≤ h.length / 32 := (Nat.one_le_div_iff (by decide)).mpr hlen
  congr 1
  omega

theorem completeRecords_drop (h : Bytes) (hlen : 32 ≤ h.length) :
    (completeRecords h).drop 32 = completeRecords (h.drop 32) := by
  unfold completeRecords
  rw [List.drop_take, List.length_drop]
  have : 1 ≤ h.length / 32 := (Nat.one_le_div_iff (by decide)).mpr hlen
  have h2 : (h.length - 32) / 32 = h.length / 32 - 1 := by omega
  rw [h2]
  congr 1
  omega

theorem Read_completeRecords (db : Store) (h : Bytes) (offset plen : Nat) (hlen : 32 ≤ h.length) :
    (retRdr.Read ⟨db, h, offset⟩ plen).map observe =
      (retRdr.Read ⟨db, completeRecords h, offset⟩ plen).map observe := by
  have hq : 1 ≤ h.length / 32 := (Nat.one_le_div_iff (by decide)).mpr hlen
  have hl := completeRecords_length h
  have h1 : h.length ≠ 0 := by omega
  have h2 : ¬ h.length < 32 := by omega
  have h1' : (completeRecords h).length ≠ 0 := by omega
  have h2' : ¬ (completeRecords h).length < 32 := by omega
  unfold retRdr.Read
  dsimp only
  rw [if_neg h1, if_neg h2, if_neg h1', if_neg h2', completeRecords_take h hlen]
  cases hget : txnGet db (chunkKey (List.take 32 h)) with
  | error e =>
    simp [observe, completeRecords_drop h hlen, completeRecords_idem]
  | ok val =>
    dsimp only
    by_cases hoff : val.length < offset
    · simp [hoff]
    · rw [if_neg hoff, if_neg hoff]
      by_cases hn : ((val.drop offset).take plen).length ≠ val.length - offset
      · rw [if_pos hn, if_pos hn]
        simp [observe, completeRecords_idem]
      · rw [if_neg hn, if_neg hn]
        simp [observe, completeRecords_drop h hlen, completeRecords_idem]


/-- A `Read` call keeps the database and either keeps the remaining digest list or drops
its first 32 bytes. -/
theorem Read_state (r : retRdr) (plen : Nat) (out : ReadResult) (h : r.Read plen = some out) :
    out.rdr.db = r.db ∧ (out.rdr.hashes = r.hashes ∨ out.rdr.hashes = r.hashes.drop 32) := by
  unfold retRdr.Read at h
  split at h
  · simp only [Option.some.injEq] at h; subst h; exact ⟨rfl, Or.inl rfl⟩
  · split at h
    · exact absurd h (by simp)
    · dsimp only at h
      split at h
      · simp only [Option.some.injEq] at h; subst h; exact ⟨rfl, Or.inr rfl⟩
      · split at h
        · exact absurd h (by simp)
        · split at h
          · simp only [Option.some.injEq] at h; subst h; exact ⟨rfl, Or.inl rfl⟩
          · simp only [Option.some.injEq] at h; subst h; exact ⟨rfl, Or.inr rfl⟩

/-- As long as complete records remain, reading a manifest and reading its complete
records return the same. -/
theorem readCalls_completeRecords (db : Store) :
    ∀ (ks : List Nat) (h : Bytes) (offset : Nat), ks.length ≤ h.length / 32 →
      readCalls ks ⟨db, h, offset⟩ = readCalls ks ⟨db, completeRecords h, offset⟩ := by
  intro ks
  induction ks with
  | nil => intro h offset _; rfl
  | cons k ks ih =>
    intro h offset hks
    have hq : 1 ≤ h.length / 32 := by simp only [List.length_cons] at hks; omega
    have hlen : 32 ≤ h.length := (Nat.one_le_div_iff (by decide)).mp hq
    have hsim := Read_completeRecords db h offset k hlen
    cases h1 : retRdr.Read ⟨db, h, offset⟩ k with
    | none =>
      rw [h1] at hsim
      cases h2 : retRdr.Read ⟨db, completeRecords h, offset⟩ k with
      | none => simp [readCalls, h1, h2]
      | some out2 => rw [h2] at hsim; simp at hsim
    | some out1 =>
      rw [h1] at hsim
      cases h2 : retRdr.Read ⟨db, completeRecords h, offset⟩ k with
      | none => rw [h2] at hsim; simp at hsim
      | some out2 =>
        rw [h2] at hsim
        simp only [Option.map_some', Option.some.injEq, observe, Prod.mk.injEq] at hsim
        obtain ⟨_, hdata, herr, hoff, hrec⟩ := hsim
        obtain ⟨hdb1, hh1⟩ := Read_state _ k out1 h1
        obtain ⟨hdb2, hh2⟩ := Read_state _ k out2 h2
        dsimp only at hdb1 hh1 hdb2 hh2
        have hrest : ks.length ≤ out1.rdr.hashes.length / 32 := by
          simp only [List.length_cons] at hks
          rcases hh1 with hh | hh
          · rw [hh]; omega
          · rw [hh, List.length_drop]; omega
        have hcomp : out2.rdr.hashes = completeRecords out1.rdr.hashes := by
          rw [hrec]
          rcases hh2 with hh | hh
          · rw [hh, completeRecords_idem]
          · rw [hh, completeRecords_drop h hlen, completeRecords_idem]
        have hr1 : out1.rdr = ⟨db, out1.rdr.hashes, out1.rdr.offset⟩ := by
          rw [← hdb1]
        have hr2 : out2.rdr = ⟨db, completeRecords out1.rdr.hashes, out1.rdr.offset⟩ := by
          rw [← hdb2, ← hcomp, hoff]
        have ih' := ih out1.rdr.hashes out1.rdr.offset hrest
        rw [← hr1, ← hr2] at ih'
        simp only [readCalls, h1, h2, hdata, herr, ih']


/-! ### The bootstrap transaction -/

theorem PutUint64_length (v : Nat) : (PutUint64 v).length = 8 := rfl

/-- Decoding an encoded 64-bit value gives the value back. -/
theorem Uint64_PutUint64 (v : Nat) (hv : v < 2 ^ 64) : Uint64 (PutUint64 v) = some v := by
  simp only [PutUint64, Uint64, byte, Option.some.injEq]
  norm_num at hv ⊢
  omega

theorem versionKey_ne_polynomialKey : versionKey ≠ polynomialKey := by
  decide

/-! ### Partial reads -/

/-- A `Read` whose buffer is shorter than what is left of the head chunk from the
offset on returns a full buffer, keeps the digest list and stores the count of this
call as the new offset. -/
theorem Read_partial (db : Store) (hash rest c : Bytes) (offset plen : Nat)
    (hlen : hash.length = 32) (hget : db (chunkKey hash) = some c)
    (hp : offset + plen < c.length) :
    retRdr.Read ⟨db, hash ++ rest, offset⟩ plen =
      some ⟨plen, (c.drop offset).take plen, none, ⟨db, hash ++ rest, plen⟩⟩ := by
  have h1 : (hash ++ rest).length ≠ 0 := by rw [List.length_append, hlen]; omega
  have h2 : ¬ (hash ++ rest).length < 32 := by rw [List.length_append, hlen]; omega
  have h3 : (hash ++ rest).take 32 = hash := List.take_left' hlen
  have h4 : ¬ c.length < offset := by omega
  have h5 : ((c.drop offset).take plen).length = plen := by
    rw [List.length_take, List.length_drop]; omega
  have h6 : plen ≠ c.length - offset := by omega
  unfold retRdr.Read
  dsimp only
  rw [if_neg h1, if_neg h2, h3]
  simp only [txnGet, hget]
  rw [if_neg h4, h5, if_pos h6]

/-- Once the offset equals the buffer length and more than two buffers of the head chunk
are left, every further call returns the same bytes and the reader does not move. -/
theorem readCalls_stuck (db : Store) (hash rest c : Bytes) (k : Nat)
    (hlen : hash.length = 32) (hget : db (chunkKey hash) = some c) (hk : 2 * k < c.length) :
    ∀ N, (readCalls (List.replicate N k) ⟨db, hash ++ rest, k⟩).2 = .pending := by
  intro N
  induction N with
  | zero => rfl
  | succ N ih =>
    rw [List.replicate_succ, readCalls,
      Read_partial db hash rest c k k hlen hget (by omega)]
    exact ih

/-- Reading a chunk longer than two buffers with buffers of a fixed length never ends. -/
theorem readCalls_never_eof (db : Store) (hash rest c : Bytes) (k : Nat)
    (hlen : hash.length = 32) (hget : db (chunkKey hash) = some c) (hk : 2 * k < c.length) :
    ∀ N, (readCalls (List.replicate N k) ⟨db, hash ++ rest, 0⟩).2 = .pending := by
  intro N
  cases N with
  | zero => rfl
  | succ N =>
    rw [List.replicate_succ, readCalls,
      Read_partial db hash rest c 0 k hlen hget (by omega)]
    exact readCalls_stuck db hash rest c k hlen hget hk N

/-! ### Store well-formedness -/

/-- The records of the digest list of `cs` are the digests of the chunks of `cs`. -/
theorem record_digestList (H : Hasher) (cs : List Bytes) (i : Nat) (hi : i < cs.length) :
    ∃ c ∈ cs, record (digestList H cs) i = H.Sum256 c := by
  induction cs generalizing i with
  | nil => exact absurd hi (by simp)
  | cons c cs ih =>
    cases i with
    | zero =>
      refine ⟨c, List.mem_cons_self _ _, ?_⟩
      simp only [record, digestList_cons, Nat.mul_zero, List.drop_zero]
      exact List.take_left' (H.size c)
    | succ j =>
      have hj : j < cs.length := by simpa using hi
      obtain ⟨c', hc', hrec⟩ := ih j hj
      refine ⟨c', List.mem_cons_of_mem _ hc', ?_⟩
      have hdrop : (H.Sum256 c ++ digestList H cs).drop (32 * (j + 1)) =
          (digestList H cs).drop (32 * j) := by
        have : 32 * (j + 1) = (H.Sum256 c).length + 32 * j := by rw [H.size]; ring
        rw [this, List.drop_append]
      simp only [record, digestList_cons] at hrec ⊢
      rw [hdrop, hrec]

theorem demoStore_blobKey (s : Bytes) : demoStore (blobKey s) = none := by
  simp [demoStore, setKey, emptyStore, blobKey_ne_polynomialKey, blobKey_ne_versionKey]

theorem demoStore_wellFormed (H : Hasher) : WellFormed H demoStore := by
  refine ⟨demoStore_keyed H, ?_⟩
  intro s m hm
  rw [demoStore_blobKey] at hm
  exact absurd hm (by simp)

/-- An ingestion that returns keeps the store well-formed. -/
theorem wellFormed_after (H : Hasher) (db : Store) (cs : List Bytes)
    (hwf : WellFormed H db) :
    WellFormed H (setKey (storeChunks H db cs) (blobKey (H.Sum256 (digestList H cs)))
      (digestList H cs)) := by
  obtain ⟨hkeyed, hman⟩ := hwf
  have hkeep : ∀ h, (db (chunkKey h)).isSome →
      ((setKey (storeChunks H db cs) (blobKey (H.Sum256 (digestList H cs)))
        (digestList H cs)) (chunkKey h)).isSome := by
    intro h hh
    obtain ⟨v, hv⟩ := Option.isSome_iff_exists.mp hh
    rw [setKey_other _ _ (chunkKey_ne_blobKey _ _), storeChunks_keep H cs db hv]
    rfl
  constructor
  · intro h v hv
    rw [setKey_other _ _ (chunkKey_ne_blobKey _ _), storeChunks_apply] at hv
    cases hold : db (chunkKey h) with
    | some v' =>
      rw [hold] at hv
      simp only [Option.or, Option.some.injEq] at hv
      subst hv
      exact hkeyed h _ hold
    | none =>
      rw [hold] at hv
      simp only [Option.or] at hv
      have hkey := List.find?_some hv
      simpa [chunkKey_inj] using hkey
  · intro s m hm
    by_cases hs : blobKey s = blobKey (H.Sum256 (digestList H cs))
    · rw [hs, setKey_same, Option.some.injEq] at hm
      subst hm
      have hlen := digestList_length H cs
      refine ⟨by rw [hlen]; exact Nat.mul_mod_right 32 _, ?_⟩
      intro i hi
      rw [hlen, Nat.mul_div_cancel_left _ (by decide : 0 < 32)] at hi
      obtain ⟨c, hc, hrec⟩ := record_digestList H cs i hi
      rw [hrec, setKey_other _ _ (chunkKey_ne_blobKey _ _)]
      exact storeChunks_present H cs db c hc
    · rw [setKey_other _ _ hs,
        storeChunks_other H cs db _ (fun d => (chunkKey_ne_blobKey d s).symm)] at hm
      obtain ⟨hmod, hrec⟩ := hman s m hm
      exact ⟨hmod, fun i hi => hkeep _ (hrec i hi)⟩

/-! ### Reading with spare capacity -/

/-- Without spare capacity `ReadSpare` is `Read`. -/
theorem ReadSpare_nil (r : retRdr) (plen : Nat) : ReadSpare [] r plen = r.Read plen := by
  unfold ReadSpare retRdr.Read
  by_cases h0 : r.hashes.length = 0
  · rw [if_pos h0, if_pos h0]
  · rw [if_neg h0, if_neg h0]
    by_cases h1 : r.hashes.length < 32
    · rw [if_pos h1, if_pos (by simpa using h1)]
    · rw [if_neg h1, if_neg (by simpa using h1)]
      simp only [List.append_nil, if_neg h1]

/-- The spare capacity plays no part while the remaining digest list is empty or holds
a complete record. -/
theorem ReadSpare_of_complete (spare : Bytes) (r : retRdr) (plen : Nat)
    (h : r.hashes.length = 0 ∨ 32 ≤ r.hashes.length) :
    ReadSpare spare r plen = r.Read plen := by
  unfold ReadSpare retRdr.Read
  by_cases h0 : r.hashes.length = 0
  · rw [if_pos h0, if_pos h0]
  · have h32 : 32 ≤ r.hashes.length := h.resolve_left h0
    have h1 : ¬ r.hashes.length < 32 := by omega
    have h1' : ¬ r.hashes.length + spare.length < 32 := by omega
    rw [if_neg h0, if_neg h0, if_neg h1, if_neg h1']
    simp only [List.take_append_of_le_length h32, if_neg h1]

theorem txnGet_error {db : Store} {k : Bytes} {e : Error} (h : txnGet db k = .error e) :
    e = .ErrKeyNotFound := by
  unfold txnGet at h
  split at h
  · exact absurd h (by simp)
  · simp only [Except.error.injEq] at h
    exact h.symm

/-- A `ReadSpare` call keeps the database and either keeps the remaining digest list or,
if it holds a complete record, drops that record; it returns `io.EOF` only on an empty
list. -/
theorem ReadSpare_state (spare : Bytes) (r : retRdr) (plen : Nat) (out : ReadResult)
    (h : ReadSpare spare r plen = some out) :
    out.rdr.db = r.db ∧
    (out.rdr.hashes = r.hashes ∨ (32 ≤ r.hashes.length ∧ out.rdr.hashes = r.hashes.drop 32)) ∧
    (out.err = some .EOF → r.hashes.length = 0) := by
  unfold ReadSpare at h
  split at h
  · rename_i h0
    simp only [Option.some.injEq] at h; subst h
    exact ⟨rfl, Or.inl rfl, fun _ => h0⟩
  · split at h
    · exact absurd h (by simp)
    · dsimp only at h
      split at h
      · rename_i e hget
        split at h
        · exact absurd h (by simp)
        · rename_i h32
          simp only [Option.some.injEq] at h; subst h
          refine ⟨rfl, Or.inr ⟨by omega, rfl⟩, ?_⟩
          intro he
          have := txnGet_error hget
          simp only [Option.some.injEq] at he
          rw [this] at he
          exact absurd he (by decide)
      · split at h
        · exact absurd h (by simp)
        · split at h
          · simp only [Option.some.injEq] at h; subst h
            exact ⟨rfl, Or.inl rfl, fun he => absurd he (by simp)⟩
          · split at h
            · exact absurd h (by simp)
            · rename_i h32
              simp only [Option.some.injEq] at h; subst h
              exact ⟨rfl, Or.inr ⟨by omega, rfl⟩, fun he => absurd he (by simp)⟩

/-- A remaining length that is not a multiple of 32 stays so under `ReadSpare`. -/
theorem ReadSpare_length_mod (spare : Bytes) (r : retRdr) (plen : Nat) (out : ReadResult)
    (h : ReadSpare spare r plen = some out) (hmod : r.hashes.length % 32 ≠ 0) :
    out.rdr.hashes.length % 32 ≠ 0 := by
  obtain ⟨_, hh, _⟩ := ReadSpare_state spare r plen out h
  rcases hh with hh | ⟨h32, hh⟩
  · rw [hh]; exact hmod
  · rw [hh, List.length_drop]; omega

theorem readerAfterSpare_length_mod (spare : Bytes) :
    ∀ (ks : List Nat) (r r' : retRdr), r.hashes.length % 32 ≠ 0 →
      readerAfterSpare spare ks r = some r' → r'.hashes.length % 32 ≠ 0 := by
  intro ks
  induction ks with
  | nil =>
    intro r r' hmod h
    simp only [readerAfterSpare, Option.some.injEq] at h
    subst h; exact hmod
  | cons k ks ih =>
    intro r r' hmod h
    rw [readerAfterSpare] at h
    cases hr : ReadSpare spare r k with
    | none => rw [hr] at h; exact absurd h (by simp)
    | some out =>
      rw [hr] at h
      exact ih out.rdr r' (ReadSpare_length_mod spare r k out hr hmod) h

/-- On a manifest whose length is not a multiple of 32 no sequence of calls ends with
`io.EOF`. -/
theorem readCallsSpare_ne_eof (spare : Bytes) :
    ∀ (ks : List Nat) (r : retRdr), r.hashes.length % 32 ≠ 0 →
      (readCallsSpare spare ks r).2 ≠ .eof := by
  intro ks
  induction ks with
  | nil => intro r _; simp [readCallsSpare]
  | cons k ks ih =>
    intro r hmod
    rw [readCallsSpare]
    cases hr : ReadSpare spare r k with
    | none => simp
    | some out =>
      obtain ⟨_, _, heof⟩ := ReadSpare_state spare r k out hr
      dsimp only
      cases herr : out.err with
      | none => exact ih out.rdr (ReadSpare_length_mod spare r k out hr hmod)
      | some e =>
        cases e with
        | EOF =>
          have := heof herr
          rw [this] at hmod
          exact absurd rfl hmod
        | ErrKeyNotFound => simp
        | other t => simp
        | versionCheck a b => simp

theorem readCallsSpare_nil : ∀ (ks : List Nat) (r : retRdr),
    readCallsSpare [] ks r = readCalls ks r := by
  intro ks
  induction ks with
  | nil => intro r; rfl
  | cons k ks ih =>
    intro r
    rw [readCallsSpare, readCalls, ReadSpare_nil]
    cases hr : r.Read k with
    | none => rfl
    | some out => simp only [ih]

/-- While complete records remain for every call, the spare capacity plays no part. -/
theorem readCallsSpare_of_complete (spare : Bytes) :
    ∀ (ks : List Nat) (r : retRdr), ks.length ≤ r.hashes.length / 32 →
      readCallsSpare spare ks r = readCalls ks r := by
  intro ks
  induction ks with
  | nil => intro r _; rfl
  | cons k ks ih =>
    intro r hks
    have hq : 1 ≤ r.hashes.length / 32 := by simp only [List.length_cons] at hks; omega
    have hlen : 32 ≤ r.hashes.length := (Nat.one_le_div_iff (by decide)).mp hq
    rw [readCallsSpare, readCalls, ReadSpare_of_complete spare r k (Or.inr hlen)]
    cases hr : r.Read k with
    | none => rfl
    | some out =>
      obtain ⟨_, hh⟩ := Read_state r k out hr
      have hrest : ks.length ≤ out.rdr.hashes.length / 32 := by
        simp only [List.length_cons] at hks
        rcases hh with hh | hh
        · rw [hh]; omega
        · rw [hh, List.length_drop]; omega
      simp only [ih out.rdr hrest]

/-- With one spare byte a manifest of 31 bytes is read: `r.hashes[:32]` takes the spare
byte as the last byte of the digest, the chunk `[7, 8, 9]` is found and a 2-byte buffer
receives `7, 8`; without spare capacity the same call faults. -/
theorem ReadSpare_shortStore :
    (ReadSpare [0] (retrieve shortStore zeroHash).1 2).map
      (fun out => (out.n, out.data, out.err, out.rdr.hashes.length, out.rdr.offset)) =
      some (2, [7, 8], none, 31, 2) ∧
    ((retrieve shortStore zeroHash).1.Read 2).isNone := by
  refine ⟨?_, ?_⟩ <;> rfl

/-! ## Properties of ingestion and retrieval -/

/-- C1 (round trip, whole-chunk reads).  Let the store hold a polynomial and let every
existing chunk entry be keyed by the digest of its own bytes; let the chunker split `b`
into chunks `cs` whose concatenation is `b`, and let the digest have no collision among
the chunks of `b` and the stored chunks (which an injective digest guarantees).  Then
`insert` returns a superhash without error, `retrieve` of it returns a reader without
error, and successive `Read` calls with buffers at least as long as the longest chunk
return, up to the first end of stream, exactly `b`. -/
theorem roundtrip_whole_chunk_reads (ch : Chunker) (H : Hasher) (db : Store) (b : Bytes)
    (poly : Nat) (cs : List Bytes)
    (hp : HoldsPolynomial db poly) (hwf : ChunksKeyedByDigest H db)
    (hch : ch poly (NewReader b) = ⟨cs, .EOF⟩) (hcat : cs.flatten = b)
    (hinj : ∀ x y, Relevant db cs x → Relevant db cs y → H.Sum256 x = H.Sum256 y → x = y) :
    ∃ o, insert ch H db (NewReader b) = some o ∧ o.err = none ∧
      (retrieve o.db o.superhash).2 = none ∧
      ∀ ks : List Nat, (∀ k ∈ ks, ∀ c ∈ cs, c.length ≤ k) → cs.length < ks.length →
        readCalls ks (retrieve o.db o.superhash).1 = (b, .eof) := by
  refine ⟨_, insert_eq ch H db (NewReader b) hp, ?_⟩
  simp only [hch, if_true]
  refine ⟨trivial, ?_, ?_⟩
  · simp [retrieve, txnGet, setKey_same]
  · intro ks hbuf hlen
    have hret : retrieve (setKey (storeChunks H db cs) (blobKey (H.Sum256 (digestList H cs)))
        (digestList H cs)) (H.Sum256 (digestList H cs)) =
        (⟨setKey (storeChunks H db cs) (blobKey (H.Sum256 (digestList H cs))) (digestList H cs),
          digestList H cs, 0⟩, none) := by
      simp [retrieve, txnGet, setKey_same]
    rw [hret, ← hcat]
    apply readCalls_whole H _ cs _ ks hbuf hlen
    intro c hc
    rw [setKey_other _ _ (chunkKey_ne_blobKey _ _)]
    exact storeChunks_lookup H cs db hwf hinj c hc

/-- Witness for C1: the six bytes `1..6`, split into two chunks, on a fresh store. -/
theorem roundtrip_whole_chunk_reads_witness :
    ∃ o, insert splitAt3 padHasher demoStore (NewReader [1, 2, 3, 4, 5, 6]) = some o ∧
      o.err = none ∧ (retrieve o.db o.superhash).2 = none ∧
      ∀ ks : List Nat, (∀ k ∈ ks, ∀ c ∈ ([[1, 2, 3], [4, 5, 6]] : List Bytes), c.length ≤ k) →
        ([[1, 2, 3], [4, 5, 6]] : List Bytes).length < ks.length →
        readCalls ks (retrieve o.db o.superhash).1 = ([1, 2, 3, 4, 5, 6], .eof) :=
  roundtrip_whole_chunk_reads splitAt3 padHasher demoStore [1, 2, 3, 4, 5, 6] 1
    [[1, 2, 3], [4, 5, 6]] demoStore_holdsPolynomial (demoStore_keyed padHasher)
    rfl rfl
    (by
      have hrel : ∀ x, Relevant demoStore [[1, 2, 3], [4, 5, 6]] x →
          x = [1, 2, 3] ∨ x = [4, 5, 6] := by
        intro x hx
        rcases hx with hx | ⟨h, hx⟩
        · simpa using hx
        · rw [demoStore_chunkKey] at hx
          exact absurd hx (by simp)
      intro x y hx hy hxy
      rcases hrel x hx with rfl | rfl <;> rcases hrel y hy with rfl | rfl
      · rfl
      · exact absurd hxy (by decide)
      · exact absurd hxy (by decide)
      · rfl)

/-- C2 at a failing input: the stream `1..6` is stored as the chunks `[1,2,3]` and
`[4,5,6]`; read back with buffers of 2 bytes (less than the smallest chunk) it yields
`[1,2,3,6]` before end of stream, while buffers of 3 bytes yield `[1,2,3,4,5,6]`; with
buffers of 1 byte ten calls return `1` and then `2` nine times, without reaching the
end of the stream. -/
theorem partial_reads_lose_bytes :
    readCalls (List.replicate 10 2)
        (retrieve (demoInsert [1, 2, 3, 4, 5, 6]).db (demoInsert [1, 2, 3, 4, 5, 6]).superhash).1
      = ([1, 2, 3, 6], .eof) ∧
    readCalls (List.replicate 10 3)
        (retrieve (demoInsert [1, 2, 3, 4, 5, 6]).db (demoInsert [1, 2, 3, 4, 5, 6]).superhash).1
      = ([1, 2, 3, 4, 5, 6], .eof) ∧
    readCalls (List.replicate 10 1)
        (retrieve (demoInsert [1, 2, 3, 4, 5, 6]).db (demoInsert [1, 2, 3, 4, 5, 6]).superhash).1
      = ([1, 2, 2, 2, 2, 2, 2, 2, 2, 2], .pending) := by
  refine ⟨?_, ?_, ?_⟩ <;> rfl

/-- C3 (idempotent ingestion).  On a store holding a polynomial, two calls of `insert`
on the same bytes in a row both return, with the same superhash (and the same error
result), and the store after the second call equals the store after the first, key
for key and value for value. -/
theorem insert_idempotent (ch : Chunker) (H : Hasher) (db : Store) (b : Bytes) (poly : Nat)
    (hp : HoldsPolynomial db poly) :
    ∃ o1 o2, insert ch H db (NewReader b) = some o1 ∧
      insert ch H o1.db (NewReader b) = some o2 ∧
      o2.superhash = o1.superhash ∧ o2.err = o1.err ∧ ∀ k, o2.db k = o1.db k := by
  by_cases he : (ch poly (NewReader b)).err = .EOF
  · have h1 := insert_eq ch H db (NewReader b) hp
    rw [if_pos he] at h1
    have hp' := holdsPolynomial_after H db (ch poly (NewReader b)).chunks
      (H.Sum256 (digestList H (ch poly (NewReader b)).chunks))
      (digestList H (ch poly (NewReader b)).chunks) hp
    have h2 := insert_eq ch H _ (NewReader b) hp'
    rw [if_pos he] at h2
    refine ⟨_, _, h1, h2, rfl, rfl, ?_⟩
    intro k
    dsimp only
    have hsame : storeChunks H (setKey (storeChunks H db (ch poly (NewReader b)).chunks)
        (blobKey (H.Sum256 (digestList H (ch poly (NewReader b)).chunks)))
        (digestList H (ch poly (NewReader b)).chunks)) (ch poly (NewReader b)).chunks =
        setKey (storeChunks H db (ch poly (NewReader b)).chunks)
        (blobKey (H.Sum256 (digestList H (ch poly (NewReader b)).chunks)))
        (digestList H (ch poly (NewReader b)).chunks) := by
      apply storeChunks_of_present
      intro c hc
      rw [setKey_other _ _ (chunkKey_ne_blobKey _ _)]
      exact storeChunks_present H _ db c hc
    rw [hsame, setKey_of_mem _ (setKey_same _ _ _)]
  · have h1 := insert_eq ch H db (NewReader b) hp
    rw [if_neg he] at h1
    exact ⟨_, _, h1, h1, rfl, rfl, fun _ => rfl⟩

/-- Witness for C3: ingesting the bytes `1..6` twice into a fresh store. -/
theorem insert_idempotent_witness :
    ∃ o1 o2, insert splitAt3 padHasher demoStore (NewReader [1, 2, 3, 4, 5, 6]) = some o1 ∧
      insert splitAt3 padHasher o1.db (NewReader [1, 2, 3, 4, 5, 6]) = some o2 ∧
      o2.superhash = o1.superhash ∧ o2.err = o1.err ∧ ∀ k, o2.db k = o1.db k :=
  insert_idempotent splitAt3 padHasher demoStore [1, 2, 3, 4, 5, 6] 1 demoStore_holdsPolynomial

/-- C4 fails as stated: the manifest stored under the all-zero superhash in
`corruptStore` is 33 bytes long, yet `retrieve` returns no error and the first `Read`
returns the bytes of the chunk named by its first 32 bytes, without error. -/
theorem manifest_of_33_bytes_is_served :
    (corruptStore (blobKey zeroHash)).map List.length = some 33 ∧
    (retrieve corruptStore zeroHash).2 = none ∧
    ((retrieve corruptStore zeroHash).1.Read 3).map (fun out => (out.n, out.data, out.err)) =
      some (3, [7, 8, 9], none) := by
  refine ⟨?_, ?_, ?_⟩ <;> rfl

/-- C4 as amended.  A manifest whose stored length is not a multiple of 32 is not
rejected: `retrieve` returns no error and a reader over the stored bytes, and as many
`Read` calls as the manifest has complete 32-byte records return exactly what they
return for the strictly shorter manifest made of those complete records, whatever the
spare capacity of the slice.  Retrieval never returns end of stream: no sequence of
`Read` calls ends with `io.EOF`, and after any calls, whatever they returned, the next
call does not return `io.EOF` either. -/
theorem manifest_length_unchecked (db : Store) (superhash m : Bytes)
    (hm : db (blobKey superhash) = some m) (hlen : m.length % 32 ≠ 0) :
    (retrieve db superhash).2 = none ∧ (retrieve db superhash).1 = ⟨db, m, 0⟩ ∧
    (completeRecords m).length < m.length ∧
    (∀ ks : List Nat, ks.length ≤ m.length / 32 →
      readCalls ks (retrieve db superhash).1 = readCalls ks ⟨db, completeRecords m, 0⟩) ∧
    (∀ (spare : Bytes) (ks : List Nat), ks.length ≤ m.length / 32 →
      readCallsSpare spare ks (retrieve db superhash).1 =
        readCalls ks ⟨db, completeRecords m, 0⟩) ∧
    (∀ (spare : Bytes) (ks : List Nat),
      (readCallsSpare spare ks (retrieve db superhash).1).2 ≠ .eof) ∧
    (∀ ks : List Nat, (readCalls ks (retrieve db superhash).1).2 ≠ .eof) ∧
    ∀ (spare : Bytes) (ks : List Nat) (r : retRdr) (plen : Nat) (out : ReadResult),
      readerAfterSpare spare ks (retrieve db superhash).1 = some r →
      ReadSpare spare r plen = some out → out.err ≠ some .EOF := by
  have hret : retrieve db superhash = (⟨db, m, 0⟩, none) := by simp [retrieve, txnGet, hm]
  rw [hret]
  refine ⟨rfl, rfl, ?_, ?_, ?_, ?_, ?_, ?_⟩
  · rw [completeRecords_length]
    have := Nat.div_add_mod m.length 32
    omega
  · intro ks hks
    exact readCalls_completeRecords db ks m 0 hks
  · intro spare ks hks
    rw [readCallsSpare_of_complete spare ks ⟨db, m, 0⟩ hks]
    exact readCalls_completeRecords db ks m 0 hks
  · intro spare ks
    exact readCallsSpare_ne_eof spare ks ⟨db, m, 0⟩ hlen
  · intro ks
    rw [← readCallsSpare_nil]
    exact readCallsSpare_ne_eof [] ks ⟨db, m, 0⟩ hlen
  · intro spare ks r plen out hr hout heof
    have hmod := readerAfterSpare_length_mod spare ks ⟨db, m, 0⟩ r hlen hr
    have hzero := (ReadSpare_state spare r plen out hout).2.2 heof
    rw [hzero] at hmod
    exact absurd rfl hmod

/-- Witness for the amended C4: the 33-byte manifest of `corruptStore`. -/
theorem manifest_length_unchecked_witness :
    (retrieve corruptStore zeroHash).2 = none ∧
    (retrieve corruptStore zeroHash).1 = ⟨corruptStore, padHasher.Sum256 [7, 8, 9] ++ [1], 0⟩ ∧
    (completeRecords (padHasher.Sum256 [7, 8, 9] ++ [1])).length <
      (padHasher.Sum256 [7, 8, 9] ++ [1]).length ∧
    (∀ ks : List Nat, ks.length ≤ (padHasher.Sum256 [7, 8, 9] ++ [1]).length / 32 →
      readCalls ks (retrieve corruptStore zeroHash).1 =
        readCalls ks ⟨corruptStore, completeRecords (padHasher.Sum256 [7, 8, 9] ++ [1]), 0⟩) ∧
    (∀ (spare : Bytes) (ks : List Nat),
      ks.length ≤ (padHasher.Sum256 [7, 8, 9] ++ [1]).length / 32 →
      readCallsSpare spare ks (retrieve corruptStore zeroHash).1 =
        readCalls ks ⟨corruptStore, completeRecords (padHasher.Sum256 [7, 8, 9] ++ [1]), 0⟩) ∧
    (∀ (spare : Bytes) (ks : List Nat),
      (readCallsSpare spare ks (retrieve corruptStore zeroHash).1).2 ≠ .eof) ∧
    (∀ ks : List Nat, (readCalls ks (retrieve corruptStore zeroHash).1).2 ≠ .eof) ∧
    ∀ (spare : Bytes) (ks : List Nat) (r : retRdr) (plen : Nat) (out : ReadResult),
      readerAfterSpare spare ks (retrieve corruptStore zeroHash).1 = some r →
      ReadSpare spare r plen = some out → out.err ≠ some .EOF :=
  manifest_length_unchecked corruptStore zeroHash (padHasher.Sum256 [7, 8, 9] ++ [1])
    (by rfl) (by decide)

/-- C5 (manifest lookup).  `retrieve` returns the not-found error exactly when the store
has no entry under the blob key of the superhash; when the entry exists it returns no
error and a reader whose remaining digest list is the stored manifest and whose byte
offset is zero. -/
theorem retrieve_notFound_iff (db : Store) (superhash : Bytes) :
    ((retrieve db superhash).2 = some .ErrKeyNotFound ↔ db (blobKey superhash) = none) ∧
    ((retrieve db superhash).2.isSome ↔ db (blobKey superhash) = none) ∧
    ∀ m, db (blobKey superhash) = some m →
      (retrieve db superhash).2 = none ∧ (retrieve db superhash).1.hashes = m ∧
      (retrieve db superhash).1.offset = 0 := by
  cases h : db (blobKey superhash) with
  | none => simp [retrieve, txnGet, h]
  | some m => simp [retrieve, txnGet, h]

/-- C6 (missing chunk).  When at least one 32-byte digest remains and the store has no
chunk entry for the head digest, `Read` returns zero bytes and the store's not-found
error, which is not the end-of-stream value that `Read` returns on an empty list. -/
theorem Read_missing_chunk (r : retRdr) (plen : Nat) (hlen : 32 ≤ r.hashes.length)
    (hmiss : r.db (chunkKey (r.hashes.take 32)) = none) :
    (∃ out, r.Read plen = some out ∧ out.n = 0 ∧ out.data = [] ∧
      out.err = some .ErrKeyNotFound) ∧
    Error.ErrKeyNotFound ≠ Error.EOF ∧
    ∀ r' : retRdr, r'.hashes = [] →
      ∃ out, r'.Read plen = some out ∧ out.n = 0 ∧ out.err = some .EOF := by
  refine ⟨?_, by decide, ?_⟩
  · have h1 : r.hashes.length ≠ 0 := by omega
    have h2 : ¬ r.hashes.length < 32 := by omega
    unfold retRdr.Read
    rw [if_neg h1, if_neg h2]
    simp [txnGet, hmiss]
  · intro r' hr'
    simp [retRdr.Read, hr']

/-- Witness for C6: a reader over one digest whose chunk the store does not hold. -/
theorem Read_missing_chunk_witness :
    (∃ out, retRdr.Read ⟨demoStore, zeroHash, 0⟩ 8 = some out ∧ out.n = 0 ∧ out.data = [] ∧
      out.err = some .ErrKeyNotFound) ∧
    Error.ErrKeyNotFound ≠ Error.EOF ∧
    ∀ r' : retRdr, r'.hashes = [] →
      ∃ out, r'.Read 8 = some out ∧ out.n = 0 ∧ out.err = some .EOF :=
  Read_missing_chunk ⟨demoStore, zeroHash, 0⟩ 8 (by decide) (demoStore_chunkKey (List.take 32 zeroHash))

/-- C7 (superhash definition).  Let the store hold a polynomial and let the chunker split
`b` into the chunks `cs`.  A successful `insert` returns the digest of the chunk digests
concatenated in stream order, and afterwards the store maps the blob key of that
superhash to exactly this concatenation, which is `32 * cs.length` bytes long. -/
theorem insert_superhash (ch : Chunker) (H : Hasher) (db : Store) (b : Bytes) (poly : Nat)
    (cs : List Bytes) (o : InsertResult)
    (hp : HoldsPolynomial db poly) (hch : (ch poly (NewReader b)).chunks = cs)
    (hins : insert ch H db (NewReader b) = some o) (hok : o.err = none) :
    o.superhash = H.Sum256 (cs.map H.Sum256).flatten ∧
    o.db (blobKey o.superhash) = some (cs.map H.Sum256).flatten ∧
    ((cs.map H.Sum256).flatten).length = 32 * cs.length := by
  rw [insert_eq ch H db (NewReader b) hp, hch] at hins
  by_cases he : (ch poly (NewReader b)).err = .EOF
  · rw [if_pos he, Option.some.injEq] at hins
    subst hins
    exact ⟨rfl, setKey_same _ _ _, digestList_length H cs⟩
  · rw [if_neg he, Option.some.injEq] at hins
    subst hins
    exact absurd hok (by simp)

/-- Witness for C7: the bytes `1..6` are split into `[1,2,3]` and `[4,5,6]`. -/
theorem insert_superhash_witness :
    (demoInsert [1, 2, 3, 4, 5, 6]).superhash =
      padHasher.Sum256 (([[1, 2, 3], [4, 5, 6]] : List Bytes).map padHasher.Sum256).flatten ∧
    (demoInsert [1, 2, 3, 4, 5, 6]).db (blobKey (demoInsert [1, 2, 3, 4, 5, 6]).superhash) =
      some (([[1, 2, 3], [4, 5, 6]] : List Bytes).map padHasher.Sum256).flatten ∧
    ((([[1, 2, 3], [4, 5, 6]] : List Bytes).map padHasher.Sum256).flatten).length = 32 * 2 :=
  insert_superhash splitAt3 padHasher demoStore [1, 2, 3, 4, 5, 6] 1 [[1, 2, 3], [4, 5, 6]]
    (demoInsert [1, 2, 3, 4, 5, 6]) demoStore_holdsPolynomial rfl (by rfl) rfl

/-- C8 (insert-if-absent frame).  After `insert`, every key that was present before the
call, other than the blob key of the returned superhash, maps to the same value; in
particular every chunk entry present before is unchanged, the version and polynomial
entries are unchanged, and no key is removed. -/
theorem insert_frame (ch : Chunker) (H : Hasher) (db : Store) (r : Reader) (o : InsertResult)
    (hins : insert ch H db r = some o) :
    (∀ k v, db k = some v → k ≠ blobKey o.superhash → o.db k = some v) ∧
    (∀ h v, db (chunkKey h) = some v → o.db (chunkKey h) = some v) ∧
    o.db versionKey = db versionKey ∧ o.db polynomialKey = db polynomialKey ∧
    ∀ k, (db k).isSome → (o.db k).isSome := by
  rcases insert_cases ch H db r o hins with ⟨e, rfl⟩ | ⟨poly, _, _, rfl⟩
  · exact ⟨fun _ _ h _ => h, fun _ _ h => h, rfl, rfl, fun _ h => h⟩
  · dsimp only
    refine ⟨?_, ?_, ?_, ?_, ?_⟩
    · intro k v hk hne
      rw [setKey_other _ _ hne]
      exact storeChunks_keep H _ db hk
    · intro h v hk
      rw [setKey_other _ _ (chunkKey_ne_blobKey _ _)]
      exact storeChunks_keep H _ db hk
    · rw [setKey_other _ _ (blobKey_ne_versionKey _).symm]
      exact storeChunks_other H _ db _ (fun d => (chunkKey_ne_versionKey d).symm)
    · rw [setKey_other _ _ (blobKey_ne_polynomialKey _).symm]
      exact storeChunks_other H _ db _ (fun d => (chunkKey_ne_polynomialKey d).symm)
    · intro k hk
      by_cases hkey : k = blobKey (H.Sum256 (digestList H (ch poly r).chunks))
      · rw [hkey, setKey_same]; rfl
      · rw [setKey_other _ _ hkey]
        obtain ⟨v, hv⟩ := Option.isSome_iff_exists.mp hk
        rw [storeChunks_keep H _ db hv]; rfl

/-- Witness for C8: ingesting the bytes `1..6` into a fresh store. -/
theorem insert_frame_witness :
    insert splitAt3 padHasher demoStore (NewReader [1, 2, 3, 4, 5, 6]) =
      some (demoInsert [1, 2, 3, 4, 5, 6]) ∧
    (∀ k v, demoStore k = some v → k ≠ blobKey (demoInsert [1, 2, 3, 4, 5, 6]).superhash →
      (demoInsert [1, 2, 3, 4, 5, 6]).db k = some v) ∧
    (∀ h v, demoStore (chunkKey h) = some v →
      (demoInsert [1, 2, 3, 4, 5, 6]).db (chunkKey h) = some v) ∧
    (demoInsert [1, 2, 3, 4, 5, 6]).db versionKey = demoStore versionKey ∧
    (demoInsert [1, 2, 3, 4, 5, 6]).db polynomialKey = demoStore polynomialKey ∧
    ∀ k, (demoStore k).isSome → ((demoInsert [1, 2, 3, 4, 5, 6]).db k).isSome :=
  ⟨by rfl, insert_frame splitAt3 padHasher demoStore (NewReader [1, 2, 3, 4, 5, 6])
    (demoInsert [1, 2, 3, 4, 5, 6]) (by rfl)⟩

/-- C9 (atomic failure).  When the chunker, run with the polynomial the store holds,
ends with an error other than end of input, after any number of chunks, `insert` returns
that error with the all-zero digest, and the store is exactly as it was before the
call.  More generally, on any store, an `insert` that returns an error returns the
all-zero digest and leaves the store as it was. -/
theorem insert_stream_failure (ch : Chunker) (H : Hasher) (db : Store) (r : Reader)
    (poly : Nat) (e : Error) (hp : HoldsPolynomial db poly)
    (herr : (ch poly r).err = e) (hne : e ≠ .EOF) :
    insert ch H db r = some ⟨List.replicate 32 0, some e, db⟩ ∧
    ∀ (db' : Store) (o : InsertResult), insert ch H db' r = some o → o.err ≠ none →
      o.superhash = List.replicate 32 0 ∧ o.db = db' := by
  constructor
  · rw [insert_eq ch H db r hp, herr, if_neg hne]
    rfl
  · intro db' o hins hfail
    rcases insert_cases ch H db' r o hins with ⟨e', rfl⟩ | ⟨_, _, _, rfl⟩
    · exact ⟨rfl, rfl⟩
    · exact absurd rfl hfail

/-- Witness for C9: a reader that fails after six bytes, of which the chunker has
already returned two chunks. -/
theorem insert_stream_failure_witness :
    (splitAt3 1 ⟨[1, 2, 3, 4, 5, 6], .other 5⟩).chunks = [[1, 2, 3], [4, 5, 6]] ∧
    insert splitAt3 padHasher demoStore ⟨[1, 2, 3, 4, 5, 6], .other 5⟩ =
      some ⟨List.replicate 32 0, some (.other 5), demoStore⟩ ∧
    ∀ (db' : Store) (o : InsertResult),
      insert splitAt3 padHasher db' ⟨[1, 2, 3, 4, 5, 6], .other 5⟩ = some o → o.err ≠ none →
      o.superhash = List.replicate 32 0 ∧ o.db = db' :=
  ⟨rfl, insert_stream_failure splitAt3 padHasher demoStore ⟨[1, 2, 3, 4, 5, 6], .other 5⟩ 1
    (.other 5) demoStore_holdsPolynomial rfl (by decide)⟩

/-- C10 (dedup).  After a successful `insert` the chunk entries are those the store had
before plus, for each digest that had no entry, the first chunk of the stream with that
digest: an entry that was present is kept, a chunk that occurs several times is stored
once, and a digest of no chunk of the stream gains no entry. -/
theorem insert_dedup (ch : Chunker) (H : Hasher) (db : Store) (b : Bytes) (poly : Nat)
    (o : InsertResult) (hp : HoldsPolynomial db poly)
    (hins : insert ch H db (NewReader b) = some o) (hok : o.err = none) :
    ∀ h, o.db (chunkKey h) =
      (db (chunkKey h)).or
        ((ch poly (NewReader b)).chunks.find? (fun c => decide (H.Sum256 c = h))) := by
  intro h
  rw [insert_eq ch H db (NewReader b) hp] at hins
  by_cases he : (ch poly (NewReader b)).err = .EOF
  · rw [if_pos he, Option.some.injEq] at hins
    subst hins
    dsimp only
    rw [setKey_other _ _ (chunkKey_ne_blobKey _ _), storeChunks_apply]
    simp only [chunkKey_inj]
  · rw [if_neg he, Option.some.injEq] at hins
    subst hins
    exact absurd hok (by simp)

/-- Witness for C10: the stream `1,2,3,1,2,3` consists of the chunk `[1,2,3]` twice. -/
theorem insert_dedup_witness :
    insert splitAt3 padHasher demoStore (NewReader [1, 2, 3, 1, 2, 3]) =
      some (demoInsert [1, 2, 3, 1, 2, 3]) ∧
    (splitAt3 1 (NewReader [1, 2, 3, 1, 2, 3])).chunks = [[1, 2, 3], [1, 2, 3]] ∧
    ∀ h, (demoInsert [1, 2, 3, 1, 2, 3]).db (chunkKey h) =
      (demoStore (chunkKey h)).or
        ((splitAt3 1 (NewReader [1, 2, 3, 1, 2, 3])).chunks.find?
          (fun c => decide (padHasher.Sum256 c = h))) :=
  ⟨by rfl, by rfl, insert_dedup splitAt3 padHasher demoStore [1, 2, 3, 1, 2, 3] 1
    (demoInsert [1, 2, 3, 1, 2, 3]) demoStore_holdsPolynomial (by rfl) rfl⟩

/-- C11 at a failing input: the stream `1,2,3` is stored by `insert` as one chunk in a
fresh store; a reader opened by `retrieve` and read with 1-byte buffers does not reach
end of stream, whatever the number of calls. -/
theorem one_byte_reads_never_end :
    insert splitAt3 padHasher demoStore (NewReader [1, 2, 3]) = some (demoInsert [1, 2, 3]) ∧
    (demoInsert [1, 2, 3]).err = none ∧
    ¬ ∃ N, (readCalls (List.replicate N 1) (demoReader [1, 2, 3])).2 = Stop.eof := by
  refine ⟨by rfl, by rfl, ?_⟩
  rintro ⟨N, hN⟩
  have hrdr : demoReader [1, 2, 3] =
      ⟨(demoInsert [1, 2, 3]).db, padHasher.Sum256 [1, 2, 3] ++ [], 0⟩ := by rfl
  have hpend := readCalls_never_eof (demoInsert [1, 2, 3]).db (padHasher.Sum256 [1, 2, 3]) []
    [1, 2, 3] 1 (padHasher.size _) (by rfl) (by decide) N
  rw [hrdr, hpend] at hN
  exact absurd hN (by decide)

/-- C12 (version mismatch).  On a store whose version entry is a single byte other than
0, the bootstrap transaction returns the version-check error and the store is
unchanged, whatever polynomial the generator would have produced (it is not asked). -/
theorem bootstrap_version_mismatch (db : Store) (v : Fin 256) (rand : Except Error Nat)
    (hv : db versionKey = some [v]) (hne : v ≠ 0) :
    bootstrap rand db = some (some (.versionCheck [v] [0]), db) := by
  simp only [bootstrap, txnGet, hv, version]
  rw [if_pos hne]

/-- Witness for C12: a store whose version marker is 1. -/
theorem bootstrap_version_mismatch_witness :
    bootstrap (.ok 7) (setKey emptyStore versionKey [1]) =
      some (some (.versionCheck [1] [0]), setKey emptyStore versionKey [1]) :=
  bootstrap_version_mismatch (setKey emptyStore versionKey [1]) 1 (.ok 7) (by rfl) (by decide)

/-- C13 (fresh-store bootstrap).  On a store without version entry and for a generated
64-bit polynomial `p`, the bootstrap transaction returns no error; afterwards the store
maps `version` to the single byte 0 and `polynomial` to the 8-byte little-endian
encoding of `p`, every other key is unchanged, and the decoding `insert` applies to the
stored polynomial value returns `p`. -/
theorem bootstrap_fresh (db : Store) (p : Nat) (hv : db versionKey = none) (hp : p < 2 ^ 64) :
    ∃ db', bootstrap (.ok p) db = some (none, db') ∧
      db' versionKey = some [0] ∧
      db' polynomialKey = some (PutUint64 p) ∧ (PutUint64 p).length = 8 ∧
      (∀ k, k ≠ versionKey → k ≠ polynomialKey → db' k = db k) ∧
      HoldsPolynomial db' p := by
  refine ⟨setKey (setKey db versionKey [0]) polynomialKey (PutUint64 p), ?_, ?_, ?_, rfl, ?_, ?_⟩
  · simp only [bootstrap, txnGet, hv, txnSet]
  · rw [setKey_other _ _ versionKey_ne_polynomialKey, setKey_same]
  · exact setKey_same _ _ _
  · intro k h1 h2
    rw [setKey_other _ _ h2, setKey_other _ _ h1]
  · exact ⟨PutUint64 p, setKey_same _ _ _, Uint64_PutUint64 p hp⟩

/-- Witness for C13: the empty store and the polynomial `0x3DA3358B4DC173`. -/
theorem bootstrap_fresh_witness :
    ∃ db', bootstrap (.ok 0x3DA3358B4DC173) emptyStore = some (none, db') ∧
      db' versionKey = some [0] ∧
      db' polynomialKey = some (PutUint64 0x3DA3358B4DC173) ∧
      (PutUint64 0x3DA3358B4DC173).length = 8 ∧
      (∀ k, k ≠ versionKey → k ≠ polynomialKey → db' k = emptyStore k) ∧
      HoldsPolynomial db' 0x3DA3358B4DC173 :=
  bootstrap_fresh emptyStore 0x3DA3358B4DC173 rfl (by norm_num)

/-- C14 at a failing input: the stream `1..6` is stored as the chunks `[1,2,3]` and
`[4,5,6]`.  After two `Read` calls with 2-byte buffers the reader has returned `1,2,3`
and advanced to the digest of `[4,5,6]`, of which no byte has been returned, yet its
offset is 2.  On the stream `1,2,3` two calls with 1-byte buffers have returned two
bytes of the head chunk, yet the offset is 1. -/
theorem offset_is_last_count_not_position :
    readCalls [2, 2] (demoReader [1, 2, 3, 4, 5, 6]) = ([1, 2, 3], .pending) ∧
    (readerAfter [2, 2] (demoReader [1, 2, 3, 4, 5, 6])).map (fun r => (r.hashes, r.offset)) =
      some (padHasher.Sum256 [4, 5, 6], 2) ∧
    readCalls [1, 1] (demoReader [1, 2, 3]) = ([1, 2], .pending) ∧
    (readerAfter [1, 1] (demoReader [1, 2, 3])).map (fun r => (r.hashes, r.offset)) =
      some (padHasher.Sum256 [1, 2, 3], 1) := by
  refine ⟨?_, ?_, ?_, ?_⟩ <;> rfl

/-- C15 at a failing input: the reader holds the two digests of `[9]` and `[1,2,3]`, and
the store has the chunk `[1,2,3]` but no chunk for the digest of `[9]`.  The `Read` call
fails with the not-found error and returns no bytes, yet the head digest is removed:
the remaining digest list is the digest of `[1,2,3]` alone. -/
theorem failed_lookup_drops_head_digest :
    (demoInsert [1, 2, 3]).db (chunkKey (padHasher.Sum256 [9])) = none ∧
    (retRdr.Read ⟨(demoInsert [1, 2, 3]).db,
        padHasher.Sum256 [9] ++ padHasher.Sum256 [1, 2, 3], 0⟩ 8).map
      (fun out => (out.n, out.data, out.err, out.rdr.hashes)) =
      some (0, [], some .ErrKeyNotFound, padHasher.Sum256 [1, 2, 3]) := by
  refine ⟨?_, ?_⟩ <;> rfl

/-- C16 (well-formedness is preserved).  If every chunk entry is keyed by the digest of
its bytes and every blob entry has a length that is a multiple of 32 and consists of
keys of present chunk entries, then the same holds of the store after any `insert`
that returns; after a successful one the manifest stored under the returned superhash
exists, and so references only present chunks. -/
theorem insert_preserves_wellFormed (ch : Chunker) (H : Hasher) (db : Store) (r : Reader)
    (o : InsertResult) (hwf : WellFormed H db) (hins : insert ch H db r = some o) :
    WellFormed H o.db ∧
    (o.err = none → ∃ m, o.db (blobKey o.superhash) = some m ∧ m.length % 32 = 0 ∧
      ∀ i, i < m.length / 32 → (o.db (chunkKey (record m i))).isSome) := by
  rcases insert_cases ch H db r o hins with ⟨e, rfl⟩ | ⟨poly, _, _, rfl⟩
  · exact ⟨hwf, fun h => absurd h (by simp)⟩
  · have hafter := wellFormed_after H db (ch poly r).chunks hwf
    refine ⟨hafter, fun _ => ?_⟩
    exact ⟨_, setKey_same _ _ _, hafter.2 _ _ (setKey_same _ _ _)⟩

/-- Witness for C16: ingesting the bytes `1..6` into a fresh store. -/
theorem insert_preserves_wellFormed_witness :
    WellFormed padHasher (demoInsert [1, 2, 3, 4, 5, 6]).db ∧
    ((demoInsert [1, 2, 3, 4, 5, 6]).err = none →
      ∃ m, (demoInsert [1, 2, 3, 4, 5, 6]).db (blobKey (demoInsert [1, 2, 3, 4, 5, 6]).superhash)
          = some m ∧ m.length % 32 = 0 ∧
        ∀ i, i < m.length / 32 →
          ((demoInsert [1, 2, 3, 4, 5, 6]).db (chunkKey (record m i))).isSome) :=
  insert_preserves_wellFormed splitAt3 padHasher demoStore (NewReader [1, 2, 3, 4, 5, 6])
    (demoInsert [1, 2, 3, 4, 5, 6]) (demoStore_wellFormed padHasher) (by rfl)

/-- C17 at a failing input: the stream `1,2,3,4` is stored as the chunks `[1,2,3]` and
`[4]`.  Two `Read` calls with 2-byte buffers return `1,2,3` and leave the reader at the
digest of `[4]` with offset 2, more than the length of that chunk, so the third call
slices `val[2:]` out of bounds. -/
theorem stale_offset_slices_out_of_bounds :
    insert splitAt3 padHasher demoStore (NewReader [1, 2, 3, 4]) =
      some (demoInsert [1, 2, 3, 4]) ∧
    (readerAfter [2, 2] (demoReader [1, 2, 3, 4])).map (fun r => (r.hashes, r.offset)) =
      some (padHasher.Sum256 [4], 2) ∧
    (demoInsert [1, 2, 3, 4]).db (chunkKey (padHasher.Sum256 [4])) = some [4] ∧
    readCalls [2, 2, 2] (demoReader [1, 2, 3, 4]) = ([1, 2, 3], .crashed) := by
  refine ⟨?_, ?_, ?_, ?_⟩ <;> rfl

/-- C18 at a failing input: after one `Read` call with a 1-byte buffer on the stream
`1,2,3` the head chunk is present, one of its three bytes is delivered and the offset
is 1.  A `Read` call with a zero-length buffer then returns zero bytes and no error and
keeps the digest list, but sets the offset to 0, so that the next 1-byte call returns
the byte `1` again. -/
theorem zero_length_read_resets_offset :
    (readerAfter [1] (demoReader [1, 2, 3])).map (fun r => (r.hashes, r.offset)) =
      some (padHasher.Sum256 [1, 2, 3], 1) ∧
    ((readerAfter [1] (demoReader [1, 2, 3])).bind (fun r => r.Read 0)).map
      (fun out => (out.n, out.data, out.err, out.rdr.hashes, out.rdr.offset)) =
      some (0, [], none, padHasher.Sum256 [1, 2, 3], 0) ∧
    readCalls [1, 0, 1] (demoReader [1, 2, 3]) = ([1, 1], .pending) := by
  refine ⟨?_, ?_, ?_⟩ <;> rfl

end SnappyChandler
